import Mathlib

/-!
Verification of the boxdrawed character-grid editor core: the sparse text
buffer (`text_area.rs`: geometry primitives, sparse storage, linear undo/redo
history, viewport-tracking text area) and the glyph compositor / layout code
(`canvas.rs`: frame buffer blitting, font manager, canvas layout).

Modelling conventions, used consistently throughout:
* Rust `isize` / `usize` are modelled as unbounded `Int` / `Nat` (the
  program's integer semantics away from the 2^63 word-size boundary);
  consequently `saturating_add_unsigned` coincides with plain addition and
  `saturating_sub` on `usize` coincides with truncated `Nat` subtraction.
* Operations that panic at small, ordinary magnitudes — `usize` subtraction
  underflow, division by zero, out-of-range slice indexing — are modelled as
  checked operations returning `Option` (`none` = panic).
* `HashMap<Coordinates, char>` is modelled as an association list with
  unique keys; `entry(..).and_modify(..).or_insert(..)` is insert-or-replace,
  `remove` deletes the key.  Claims about "same keys, same characters" are
  stated through the lookup function, i.e. extensionally, since hash-map
  iteration order is unspecified.
* The external font rasterizer (`fontdue`) is modelled as an opaque pure
  function from characters to (metrics, coverage bitmap); the memoizing atlas
  is elided since memoization of a pure function is unobservable.
* `f32` font sizes are modelled by their integer truncation (`value as usize`),
  which is the only way the layout code consumes them.
-/

namespace Boxdrawed

/-- Signed 2-D coordinate, from `Coordinates` in `text_area.rs` (`x`, `y` are
Rust `isize`, modelled as `Int`). -/
structure Coordinates where
  x : Int
  y : Int
deriving DecidableEq, Repr

/-- Component-wise `min` with a scalar (`Coordinates::min`). -/
def Coordinates.minScalar (p : Coordinates) (v : Int) : Coordinates :=
  ⟨min p.x v, min p.y v⟩

/-- Component-wise `max` with a scalar (`Coordinates::max`). -/
def Coordinates.maxScalar (p : Coordinates) (v : Int) : Coordinates :=
  ⟨max p.x v, max p.y v⟩

/-- Unsigned magnitudes of both components (`Coordinates::unsigned_abs`). -/
def Coordinates.unsignedAbs (p : Coordinates) : Nat × Nat :=
  (p.x.natAbs, p.y.natAbs)

/-- Component-wise addition (`impl Add for Coordinates`). -/
def Coordinates.add (p q : Coordinates) : Coordinates :=
  ⟨p.x + q.x, p.y + q.y⟩

/-- Component-wise subtraction (`impl Sub for Coordinates`). -/
def Coordinates.sub (p q : Coordinates) : Coordinates :=
  ⟨p.x - q.x, p.y - q.y⟩

/-- Component-wise multiplication (`impl Mul for Coordinates`). -/
def Coordinates.mul (p q : Coordinates) : Coordinates :=
  ⟨p.x * q.x, p.y * q.y⟩

/-- Scalar multiplication (`impl Mul<isize> for Coordinates`). -/
def Coordinates.smul (p : Coordinates) (v : Int) : Coordinates :=
  ⟨p.x * v, p.y * v⟩

/-- Axis-aligned rectangle, from `BoundingBox` in `text_area.rs`. -/
structure BoundingBox where
  top_left : Coordinates
  width : Nat
  height : Nat
deriving DecidableEq, Repr

/-- Half-open containment test, from `BoundingBox::contains`.  The source
computes the exclusive upper bound with `saturating_add_unsigned`, which on
the unbounded-integer model is plain addition. -/
def BoundingBox.contains (b : BoundingBox) (p : Coordinates) : Bool :=
  (decide (b.top_left.x ≤ p.x) && decide (p.x < b.top_left.x + (b.width : Int))) &&
  (decide (b.top_left.y ≤ p.y) && decide (p.y < b.top_left.y + (b.height : Int)))

theorem BoundingBox.contains_iff (b : BoundingBox) (p : Coordinates) :
    b.contains p = true ↔
      (b.top_left.x ≤ p.x ∧ p.x < b.top_left.x + (b.width : Int)) ∧
      (b.top_left.y ≤ p.y ∧ p.y < b.top_left.y + (b.height : Int)) := by
  simp [BoundingBox.contains]

/-- Rectangle-relative conversion, from `BoundingBox::convert_to_relative`:
returns `point - top_left` iff contained.  The two internal
`assert!(point - top_left ≥ 0)` checks of the source are settled separately
(they are proved to hold whenever `contains` does). -/
def BoundingBox.convertToRelative (b : BoundingBox) (p : Coordinates) : Option Coordinates :=
  if b.contains p then
    some ⟨p.x - b.top_left.x, p.y - b.top_left.y⟩
  else
    none

/-- C9: for every rectangle and point, `convert_to_relative` returns
`point - top_left` exactly when the half-open containment test holds on
both axes, and `none` otherwise; under containment both components of the
difference are non-negative, so the source's internal `assert!` checks
never fail. -/
theorem convertToRelative_spec (b : BoundingBox) (p : Coordinates) :
    (b.contains p = true →
      b.convertToRelative p = some ⟨p.x - b.top_left.x, p.y - b.top_left.y⟩ ∧
      0 ≤ p.x - b.top_left.x ∧ 0 ≤ p.y - b.top_left.y) ∧
    (b.contains p = false → b.convertToRelative p = none) := by
  constructor
  · intro hc
    have h := (BoundingBox.contains_iff b p).mp hc
    refine ⟨by simp [BoundingBox.convertToRelative, hc], ?_, ?_⟩
    · omega
    · omega
  · intro hc
    simp [BoundingBox.convertToRelative, hc]

/-- Concrete instantiation of `convertToRelative_spec` at the rectangle
with top-left `(-2, 1)`, width 4, height 3 and the point `(0, 2)`. -/
theorem convertToRelative_spec_witness :
    (BoundingBox.mk ⟨-2, 1⟩ 4 3).contains ⟨0, 2⟩ = true ∧
      (BoundingBox.mk ⟨-2, 1⟩ 4 3).convertToRelative ⟨0, 2⟩ = some ⟨2, 1⟩ :=
  ⟨by decide, ((convertToRelative_spec (BoundingBox.mk ⟨-2, 1⟩ 4 3) ⟨0, 2⟩).1 (by decide)).1⟩

/-- Sparse text storage, from `TextStorage` in `text_area.rs`.  The Rust
`HashMap<Coordinates, char>` is modelled as an association list with unique
keys (see the header conventions). -/
structure TextStorage where
  characters : List (Coordinates × Char)
deriving DecidableEq, Repr

/-- Empty storage (`TextStorage::new`). -/
def TextStorage.new : TextStorage := ⟨[]⟩

/-- Association-list lookup realizing `HashMap::get`. -/
def lookupA : List (Coordinates × Char) → Coordinates → Option Char
  | [], _ => none
  | e :: rest, p => if e.1 = p then some e.2 else lookupA rest p

/-- Association-list insert-or-replace realizing
`entry(pos).and_modify(|x| *x = c).or_insert(c)`: replaces the value of an
existing key in place, otherwise appends the new binding. -/
def insertA : List (Coordinates × Char) → Coordinates → Char → List (Coordinates × Char)
  | [], p, c => [(p, c)]
  | e :: rest, p, c => if e.1 = p then (p, c) :: rest else e :: insertA rest p c

/-- Association-list key deletion realizing `HashMap::remove` (the returned
old value is read with `lookupA` by callers that need it). -/
def removeA : List (Coordinates × Char) → Coordinates → List (Coordinates × Char)
  | [], _ => []
  | e :: rest, p => if e.1 = p then removeA rest p else e :: removeA rest p

/-- Key lookup (`HashMap::get`). -/
def TextStorage.get (ts : TextStorage) (p : Coordinates) : Option Char :=
  lookupA ts.characters p

/-- Insert-or-replace (`entry(pos).and_modify(|x| *x = c).or_insert(c)`). -/
def TextStorage.insert (ts : TextStorage) (p : Coordinates) (c : Char) : TextStorage :=
  ⟨insertA ts.characters p c⟩

/-- Key removal (`HashMap::remove`). -/
def TextStorage.remove (ts : TextStorage) (p : Coordinates) : TextStorage :=
  ⟨removeA ts.characters p⟩

/-- Viewport query, from `TextStorage::characters_in_bounding_box`: every
stored entry whose coordinate converts to a viewport-relative position. -/
def TextStorage.charactersInBoundingBox (ts : TextStorage) (bb : BoundingBox) :
    List (Coordinates × Char) :=
  ts.characters.filterMap (fun e => (bb.convertToRelative e.1).map (fun r => (r, e.2)))

theorem TextStorage.get_insert (ts : TextStorage) (p : Coordinates) (c : Char)
    (q : Coordinates) :
    (ts.insert p c).get q = if q = p then some c else ts.get q := by
  obtain ⟨l⟩ := ts
  simp only [TextStorage.insert, TextStorage.get]
  induction l with
  | nil =>
    by_cases h : q = p
    · simp [insertA, lookupA, h]
    · simp [insertA, lookupA, h, show ¬ p = q from fun hh => h hh.symm]
  | cons e rest ih =>
    by_cases hep : e.1 = p
    · simp only [insertA, if_pos hep, lookupA]
      by_cases hqp : q = p
      · simp [hqp]
      · simp [if_neg hqp, show ¬ p = q from fun hh => hqp hh.symm,
          show ¬ e.1 = q from fun hh => hqp ((hep.symm.trans hh).symm)]
    · simp only [insertA, if_neg hep, lookupA]
      by_cases heq : e.1 = q
      · have hqp : ¬ q = p := fun hh => hep (heq.trans hh)
        simp [heq, hqp]
      · simp only [if_neg heq]
        exact ih

theorem TextStorage.get_remove (ts : TextStorage) (p : Coordinates) (q : Coordinates) :
    (ts.remove p).get q = if q = p then none else ts.get q := by
  obtain ⟨l⟩ := ts
  simp only [TextStorage.remove, TextStorage.get]
  induction l with
  | nil => by_cases h : q = p <;> simp [removeA, lookupA, h]
  | cons e rest ih =>
    by_cases hep : e.1 = p
    · simp only [removeA, if_pos hep]
      by_cases hqp : q = p
      · simpa [hqp] using ih
      · rw [ih]
        simp only [if_neg hqp, lookupA,
          if_neg (show ¬ e.1 = q from fun hh => hqp ((hep.symm.trans hh).symm))]
    · simp only [removeA, if_neg hep, lookupA]
      by_cases heq : e.1 = q
      · have hqp : ¬ q = p := fun hh => hep (heq.trans hh)
        simp [heq, hqp]
      · simp only [if_neg heq]
        exact ih

theorem TextStorage.remove_of_get_none (ts : TextStorage) (p : Coordinates)
    (h : ts.get p = none) : ts.remove p = ts := by
  obtain ⟨l⟩ := ts
  simp only [TextStorage.get] at h
  simp only [TextStorage.remove, TextStorage.mk.injEq]
  induction l with
  | nil => rfl
  | cons e rest ih =>
    simp only [lookupA] at h
    by_cases hep : e.1 = p
    · simp [hep] at h
    · simp only [if_neg hep] at h
      simp [removeA, if_neg hep, ih h]

/-- Cursor movement direction, from `Direction` in `text_area.rs`. -/
inductive Direction where
  | up
  | right
  | down
  | left
deriving DecidableEq, Repr

/-- Unit delta of a direction (`Direction::vector`). -/
def Direction.vector : Direction → Coordinates
  | .up => ⟨0, -1⟩
  | .right => ⟨1, 0⟩
  | .down => ⟨0, 1⟩
  | .left => ⟨-1, 0⟩

/-- Reversible edit record, from `Change` in `text_area.rs`. -/
inductive Change where
  | addedChar (pos : Coordinates) (c : Char)
  | removedChar (pos : Coordinates) (c : Char)
deriving DecidableEq, Repr

/-- Linear edit log with a cursor index, from `History` in `text_area.rs`. -/
structure History where
  changes : List Change
  cursor : Nat
deriving DecidableEq, Repr

/-- Empty history (`History::new`). -/
def History.new : History := ⟨[], 0⟩

/-- From `History::undo`: if the cursor is positive, decrement it and return
the change now under it (together with the updated history — the Rust method
mutates `self` in place). -/
def History.undo (h : History) : Option Change × History :=
  if h.cursor = 0 then
    (none, h)
  else
    (h.changes[h.cursor - 1]?, { h with cursor := h.cursor - 1 })

/-- From `History::redo`: if the cursor is not at the end, return the change
under it and increment it. -/
def History.redo (h : History) : Option Change × History :=
  if h.changes.length = h.cursor then
    (none, h)
  else
    (h.changes[h.cursor]?, { h with cursor := h.cursor + 1 })

/-- From `History::add`: truncate the log at the cursor when the cursor is
not at the end (`Vec::truncate(cursor)` keeps the first `cursor` elements),
push the new change, and advance the cursor. -/
def History.add (h : History) (e : Change) : History :=
  let cs := if h.changes.length ≠ h.cursor then h.changes.take h.cursor else h.changes
  { changes := cs ++ [e], cursor := h.cursor + 1 }

theorem History.add_changes (h : History) (e : Change) :
    (h.add e).changes = h.changes.take h.cursor ++ [e] := by
  simp only [History.add]
  by_cases hl : h.changes.length = h.cursor
  · rw [if_neg (by simp [hl]), ← hl, List.take_length]
  · rw [if_pos hl]

theorem History.add_cursor (h : History) (e : Change) :
    (h.add e).cursor = h.cursor + 1 := rfl

/-- C5: recording a new edit while the history cursor is strictly before the
end of the log discards all edits from the cursor onward before appending
(the new log is the first `cursor` entries followed by the new edit, and the
cursor advances past it); immediately after recording, `redo` returns
nothing and leaves the history unchanged, so the discarded edits are gone
until further edits are recorded and then undone. -/
theorem history_add_truncates (h : History) (e : Change)
    (hinv : h.cursor ≤ h.changes.length) :
    (h.add e).changes = h.changes.take h.cursor ++ [e] ∧
    (h.add e).cursor = h.cursor + 1 ∧
    (h.add e).redo = (none, h.add e) := by
  refine ⟨History.add_changes h e, History.add_cursor h e, ?_⟩
  have hlen : (h.add e).changes.length = (h.add e).cursor := by
    rw [History.add_changes, History.add_cursor]
    simp [List.length_take, Nat.min_eq_left hinv]
  simp [History.redo, hlen]

/-- Concrete instantiation of `history_add_truncates`: a two-edit history
whose cursor was moved back to 1 by an undo; adding a third edit discards
the second and leaves nothing to redo. -/
theorem history_add_truncates_witness :
    (History.mk [Change.addedChar ⟨0, 0⟩ 'a', Change.addedChar ⟨1, 0⟩ 'b'] 1).cursor ≤
      (History.mk [Change.addedChar ⟨0, 0⟩ 'a', Change.addedChar ⟨1, 0⟩ 'b'] 1).changes.length ∧
    ((History.mk [Change.addedChar ⟨0, 0⟩ 'a', Change.addedChar ⟨1, 0⟩ 'b'] 1).add
        (Change.addedChar ⟨2, 0⟩ 'c')).changes =
      [Change.addedChar ⟨0, 0⟩ 'a', Change.addedChar ⟨2, 0⟩ 'c'] :=
  ⟨by decide, by
    have h := history_add_truncates
      (History.mk [Change.addedChar ⟨0, 0⟩ 'a', Change.addedChar ⟨1, 0⟩ 'b'] 1)
      (Change.addedChar ⟨2, 0⟩ 'c') (by decide)
    rw [h.1]
    decide⟩

/-- Text area, from `TextArea` in `text_area.rs`: sparse storage, viewport
rectangle, absolute cursor, lazily recomputed view cache, and edit history. -/
structure TextArea where
  text_storage : TextStorage
  bounding_box : BoundingBox
  cursor_absolute_position : Coordinates
  view_cache : Option (List (Coordinates × Char))
  history : History
deriving DecidableEq, Repr

/-- From `TextArea::new`: empty storage, viewport anchored at the origin
with the given size, cursor at the origin, no cache, empty history. -/
def TextArea.new (width height : Nat) : TextArea where
  text_storage := TextStorage.new
  bounding_box := ⟨⟨0, 0⟩, width, height⟩
  cursor_absolute_position := ⟨0, 0⟩
  view_cache := none
  history := History.new

/-- From `TextArea::cursor_relative_position`. -/
def TextArea.cursorRelativePosition (s : TextArea) : Coordinates :=
  ⟨s.cursor_absolute_position.x - s.bounding_box.top_left.x,
   s.cursor_absolute_position.y - s.bounding_box.top_left.y⟩

/-- From `TextArea::ensure_cache`: populate the cache from storage if absent. -/
def TextArea.ensureCache (s : TextArea) : TextArea :=
  if s.view_cache = none then
    { s with view_cache := some (s.text_storage.charactersInBoundingBox s.bounding_box) }
  else
    s

/-- From `TextArea::chars`: ensure the cache and yield its contents (the Rust
method takes `&mut self`; the model returns the yielded list together with
the updated text area). -/
def TextArea.chars (s : TextArea) : List (Coordinates × Char) × TextArea :=
  let s' := s.ensureCache
  (s'.view_cache.getD [], s')

/-- Single-axis viewport clamp: the two sequential `if` statements that
`TextArea::adjust_view_to_cursor` performs per axis, the second testing
against the possibly-updated top-left (`t1`).  `w` is the viewport extent on
the axis, `c` the cursor component. -/
def adjustAxis (tl : Int) (w : Nat) (c : Int) : Int :=
  let t1 := if c < tl then c else tl
  if c ≥ t1 + (w : Int) then c - ((w : Int) - 1) else t1

/-- From `TextArea::adjust_view_to_cursor`: clamp the viewport top-left to
the cursor independently on each axis, preserving width and height. -/
def TextArea.adjustViewToCursor (s : TextArea) : TextArea :=
  { s with
    bounding_box :=
      { s.bounding_box with
        top_left :=
          ⟨adjustAxis s.bounding_box.top_left.x s.bounding_box.width
              s.cursor_absolute_position.x,
           adjustAxis s.bounding_box.top_left.y s.bounding_box.height
              s.cursor_absolute_position.y⟩ } }

/-- From `TextArea::move_cursor`: translate the cursor by the direction's
unit vector, clamp the viewport, invalidate the cache. -/
def TextArea.moveCursor (s : TextArea) (d : Direction) : TextArea :=
  let s' := { s with
    cursor_absolute_position := s.cursor_absolute_position.add d.vector }
  { s'.adjustViewToCursor with view_cache := none }

/-- From `TextArea::move_cursor_by`: translate the cursor by the direction's
vector scaled by `amount` (a `usize`, cast to `isize`; exact on the
unbounded-integer model), clamp the viewport, invalidate the cache. -/
def TextArea.moveCursorBy (s : TextArea) (d : Direction) (amount : Nat) : TextArea :=
  let s' := { s with
    cursor_absolute_position :=
      s.cursor_absolute_position.add (d.vector.smul (amount : Int)) }
  { s'.adjustViewToCursor with view_cache := none }

/-- From `TextArea::write_at_cursor`: upsert the character at the cursor,
record an `AddedChar` edit, invalidate the cache. -/
def TextArea.writeAtCursor (s : TextArea) (c : Char) : TextArea :=
  { s with
    text_storage := s.text_storage.insert s.cursor_absolute_position c
    history := s.history.add (Change.addedChar s.cursor_absolute_position c)
    view_cache := none }

/-- From `TextArea::erase_at_cursor`: remove the character at the cursor if
present; record a `RemovedChar` edit only when something was removed;
invalidate the cache. -/
def TextArea.eraseAtCursor (s : TextArea) : TextArea :=
  let oldChar := s.text_storage.get s.cursor_absolute_position
  match oldChar with
  | some c =>
      { s with
        text_storage := s.text_storage.remove s.cursor_absolute_position
        history := s.history.add (Change.removedChar s.cursor_absolute_position c)
        view_cache := none }
  | none =>
      { s with
        text_storage := s.text_storage.remove s.cursor_absolute_position
        view_cache := none }

/-- From `TextArea::clear`: empty the storage (history untouched),
invalidate the cache. -/
def TextArea.clear (s : TextArea) : TextArea :=
  { s with text_storage := ⟨[]⟩, view_cache := none }

/-- From `TextArea::write_string_at_cursor`: write each character and move
right after each write. -/
def TextArea.writeStringAtCursor (s : TextArea) (cs : List Char) : TextArea :=
  cs.foldl (fun t c => (t.writeAtCursor c).moveCursor .right) s

/-- From `TextArea::reset_cursor`: cursor back to the origin (nothing else
changes; in particular the cache is not invalidated). -/
def TextArea.resetCursor (s : TextArea) : TextArea :=
  { s with cursor_absolute_position := ⟨0, 0⟩ }

/-- From `TextArea::replace_with_string`. -/
def TextArea.replaceWithString (s : TextArea) (cs : List Char) : TextArea :=
  (s.clear.resetCursor).writeStringAtCursor cs

/-- From `TextArea::set_size`: resize the viewport, invalidate the cache,
move the cursor to the viewport's top-left. -/
def TextArea.setSize (s : TextArea) (width height : Nat) : TextArea :=
  { s with
    bounding_box := { s.bounding_box with width := width, height := height }
    view_cache := none
    cursor_absolute_position := s.bounding_box.top_left }

/-- From `TextArea::undo`: pull one change from the history and invert its
effect on storage (an `AddedChar` is removed, a `RemovedChar` is re-inserted),
invalidating the cache; if the history has nothing to undo this is a no-op. -/
def TextArea.undo (s : TextArea) : TextArea :=
  match s.history.undo with
  | (some (Change.addedChar pos _), h') =>
      { s with history := h', text_storage := s.text_storage.remove pos, view_cache := none }
  | (some (Change.removedChar pos c), h') =>
      { s with history := h', text_storage := s.text_storage.insert pos c, view_cache := none }
  | (none, h') => { s with history := h' }

/-- From `TextArea::redo`: pull one change from the history and re-apply its
effect on storage, invalidating the cache; no-op when nothing to redo. -/
def TextArea.redo (s : TextArea) : TextArea :=
  match s.history.redo with
  | (some (Change.addedChar pos c), h') =>
      { s with history := h', text_storage := s.text_storage.insert pos c, view_cache := none }
  | (some (Change.removedChar pos _), h') =>
      { s with history := h', text_storage := s.text_storage.remove pos, view_cache := none }
  | (none, h') => { s with history := h' }

/-- C8: erasing at a cursor position holding no character is a silent no-op
(storage and history both unchanged, in particular no edit is recorded);
erasing where a character `c` is present removes exactly that key from
storage and appends exactly one `RemovedChar` edit recording `c` (after the
standard truncation at the history cursor), advancing the history cursor. -/
theorem eraseAtCursor_spec (s : TextArea) :
    (s.text_storage.get s.cursor_absolute_position = none →
      s.eraseAtCursor.text_storage = s.text_storage ∧
      s.eraseAtCursor.history = s.history) ∧
    (∀ c : Char, s.text_storage.get s.cursor_absolute_position = some c →
      (∀ q, s.eraseAtCursor.text_storage.get q =
        if q = s.cursor_absolute_position then none else s.text_storage.get q) ∧
      s.eraseAtCursor.history.changes =
        s.history.changes.take s.history.cursor ++
          [Change.removedChar s.cursor_absolute_position c] ∧
      s.eraseAtCursor.history.cursor = s.history.cursor + 1) := by
  constructor
  · intro hnone
    simp only [TextArea.eraseAtCursor, hnone]
    exact ⟨TextStorage.remove_of_get_none _ _ hnone, trivial⟩
  · intro c hc
    simp only [TextArea.eraseAtCursor, hc]
    exact ⟨fun q => TextStorage.get_remove _ _ _,
      History.add_changes _ _, History.add_cursor _ _⟩

/-- Concrete instantiation of `eraseAtCursor_spec`: erasing on a fresh text
area (empty cell) records nothing; after writing 'z' at the origin, erasing
removes it and records a `RemovedChar` edit. -/
theorem eraseAtCursor_spec_witness :
    ((TextArea.new 3 2).text_storage.get ⟨0, 0⟩ = none ∧
      (TextArea.new 3 2).eraseAtCursor.history = (TextArea.new 3 2).history) ∧
    (((TextArea.new 3 2).writeAtCursor 'z').text_storage.get ⟨0, 0⟩ = some 'z' ∧
      ((TextArea.new 3 2).writeAtCursor 'z').eraseAtCursor.history.changes =
        [Change.addedChar ⟨0, 0⟩ 'z', Change.removedChar ⟨0, 0⟩ 'z']) := by
  refine ⟨⟨by decide, ((eraseAtCursor_spec (TextArea.new 3 2)).1 (by decide)).2⟩,
    by decide, ?_⟩
  have h := ((eraseAtCursor_spec ((TextArea.new 3 2).writeAtCursor 'z')).2 'z'
    (by decide)).2.1
  rw [h]
  decide

theorem adjustAxis_le (tl : Int) (w : Nat) (c : Int) (hw : 0 < w) :
    adjustAxis tl w c ≤ c ∧ c < adjustAxis tl w c + (w : Int) := by
  simp only [adjustAxis]
  split_ifs <;> omega

theorem adjustAxis_inRange (tl : Int) (w : Nat) (c : Int)
    (h1 : tl ≤ c) (h2 : c < tl + (w : Int)) : adjustAxis tl w c = tl := by
  simp only [adjustAxis]
  split_ifs <;> omega

theorem adjustAxis_minimal (tl : Int) (w : Nat) (c : Int) (hw : 0 < w)
    (u : Int) (hu1 : u ≤ c) (hu2 : c < u + (w : Int)) :
    |adjustAxis tl w c - tl| ≤ |u - tl| := by
  rcases le_or_lt tl c with h1 | h1
  · rcases lt_or_le c (tl + (w : Int)) with h2 | h2
    · rw [adjustAxis_inRange tl w c h1 h2]
      simp [abs_nonneg]
    · have he : adjustAxis tl w c = c - ((w : Int) - 1) := by
        simp only [adjustAxis]
        split_ifs <;> omega
      rw [he, abs_of_nonneg (by omega), abs_of_nonneg (by omega)]
      omega
  · have he : adjustAxis tl w c = c := by
      simp only [adjustAxis]
      split_ifs <;> omega
    rw [he, abs_of_nonpos (by omega), abs_of_nonpos (by omega)]
    omega

/-- The conjunction of C4's guarantees for one resulting state `t` of a
cursor move on a prior state `s`: viewport extents unchanged, cursor
contained, and the per-axis shift of the viewport's top-left no larger than
any shift that would bring the cursor into a viewport of the same extent. -/
def viewportAdjusted (s t : TextArea) : Prop :=
  t.bounding_box.width = s.bounding_box.width ∧
  t.bounding_box.height = s.bounding_box.height ∧
  t.bounding_box.contains t.cursor_absolute_position = true ∧
  (∀ u : Int, u ≤ t.cursor_absolute_position.x →
    t.cursor_absolute_position.x < u + (s.bounding_box.width : Int) →
    |t.bounding_box.top_left.x - s.bounding_box.top_left.x| ≤
      |u - s.bounding_box.top_left.x|) ∧
  (∀ u : Int, u ≤ t.cursor_absolute_position.y →
    t.cursor_absolute_position.y < u + (s.bounding_box.height : Int) →
    |t.bounding_box.top_left.y - s.bounding_box.top_left.y| ≤
      |u - s.bounding_box.top_left.y|)

theorem adjustViewToCursor_viewportAdjusted (s : TextArea)
    (hw : 0 < s.bounding_box.width) (hh : 0 < s.bounding_box.height) :
    viewportAdjusted s s.adjustViewToCursor := by
  obtain ⟨hx1, hx2⟩ := adjustAxis_le s.bounding_box.top_left.x s.bounding_box.width
    s.cursor_absolute_position.x hw
  obtain ⟨hy1, hy2⟩ := adjustAxis_le s.bounding_box.top_left.y s.bounding_box.height
    s.cursor_absolute_position.y hh
  refine ⟨rfl, rfl, ?_, ?_, ?_⟩
  · rw [BoundingBox.contains_iff]
    exact ⟨⟨hx1, hx2⟩, hy1, hy2⟩
  · intro u hu1 hu2
    exact adjustAxis_minimal _ _ _ hw u hu1 hu2
  · intro u hu1 hu2
    exact adjustAxis_minimal _ _ _ hh u hu1 hu2

/-- C4: after any `move_cursor` or `move_cursor_by` call on a text area with
positive viewport width and height, the cursor's absolute position is
contained in the viewport; the viewport's extents are unchanged and its
top-left was shifted independently per axis by the minimum amount able to
contain the cursor. -/
theorem moveCursor_viewportAdjusted (s : TextArea) (d : Direction) (n : Nat)
    (hw : 0 < s.bounding_box.width) (hh : 0 < s.bounding_box.height) :
    viewportAdjusted s (s.moveCursor d) ∧ viewportAdjusted s (s.moveCursorBy d n) := by
  constructor
  · have h := adjustViewToCursor_viewportAdjusted
      { s with cursor_absolute_position := s.cursor_absolute_position.add d.vector } hw hh
    exact h
  · have h := adjustViewToCursor_viewportAdjusted
      { s with cursor_absolute_position :=
          s.cursor_absolute_position.add (d.vector.smul (n : Int)) } hw hh
    exact h

/-- Concrete instantiation of `moveCursor_viewportAdjusted`: a fresh 2×2
text area, direction right, amount 5. -/
theorem moveCursor_viewportAdjusted_witness :
    0 < (TextArea.new 2 2).bounding_box.width ∧
    0 < (TextArea.new 2 2).bounding_box.height ∧
    viewportAdjusted (TextArea.new 2 2) ((TextArea.new 2 2).moveCursorBy .right 5) :=
  ⟨by decide, by decide,
    (moveCursor_viewportAdjusted (TextArea.new 2 2) .right 5 (by decide) (by decide)).2⟩

section MoveEquivalence

theorem moveCursor_eq (s : TextArea) (d : Direction) :
    s.moveCursor d =
      ⟨s.text_storage,
       ⟨⟨adjustAxis s.bounding_box.top_left.x s.bounding_box.width
            (s.cursor_absolute_position.x + d.vector.x),
         adjustAxis s.bounding_box.top_left.y s.bounding_box.height
            (s.cursor_absolute_position.y + d.vector.y)⟩,
        s.bounding_box.width, s.bounding_box.height⟩,
       ⟨s.cursor_absolute_position.x + d.vector.x,
        s.cursor_absolute_position.y + d.vector.y⟩,
       none, s.history⟩ := rfl

theorem moveCursorBy_eq (s : TextArea) (d : Direction) (n : Nat) :
    s.moveCursorBy d n =
      ⟨s.text_storage,
       ⟨⟨adjustAxis s.bounding_box.top_left.x s.bounding_box.width
            (s.cursor_absolute_position.x + d.vector.x * (n : Int)),
         adjustAxis s.bounding_box.top_left.y s.bounding_box.height
            (s.cursor_absolute_position.y + d.vector.y * (n : Int))⟩,
        s.bounding_box.width, s.bounding_box.height⟩,
       ⟨s.cursor_absolute_position.x + d.vector.x * (n : Int),
        s.cursor_absolute_position.y + d.vector.y * (n : Int)⟩,
       none, s.history⟩ := rfl

theorem iterate_moveCursor_right (s : TextArea)
    (hx1 : s.bounding_box.top_left.x ≤ s.cursor_absolute_position.x)
    (hx2 : s.cursor_absolute_position.x <
      s.bounding_box.top_left.x + (s.bounding_box.width : Int))
    (hy1 : s.bounding_box.top_left.y ≤ s.cursor_absolute_position.y)
    (hy2 : s.cursor_absolute_position.y <
      s.bounding_box.top_left.y + (s.bounding_box.height : Int)) :
    ∀ k : Nat, 1 ≤ k →
      (fun t => t.moveCursor .right)^[k] s =
        ⟨s.text_storage,
         ⟨⟨max s.bounding_box.top_left.x
              (s.cursor_absolute_position.x + (k : Int) - ((s.bounding_box.width : Int) - 1)),
           s.bounding_box.top_left.y⟩,
          s.bounding_box.width, s.bounding_box.height⟩,
         ⟨s.cursor_absolute_position.x + (k : Int), s.cursor_absolute_position.y⟩,
         none, s.history⟩ := by
  intro k hk
  induction k, hk using Nat.le_induction with
  | base =>
    rw [Function.iterate_one, moveCursor_eq]
    simp only [Direction.vector, TextArea.mk.injEq, BoundingBox.mk.injEq,
      Coordinates.mk.injEq, adjustAxis]
    repeat' apply And.intro
    all_goals first
      | rfl
      | trivial
      | (simp only [max_def, min_def]; split_ifs <;> push_cast <;> omega)
      | (split_ifs <;> push_cast <;> omega)
      | (push_cast; omega)
      | omega
  | succ k hk ih =>
    rw [Function.iterate_succ_apply', ih, moveCursor_eq]
    simp only [Direction.vector, TextArea.mk.injEq, BoundingBox.mk.injEq,
      Coordinates.mk.injEq, adjustAxis]
    repeat' apply And.intro
    all_goals first
      | rfl
      | trivial
      | (simp only [max_def, min_def]; split_ifs <;> push_cast <;> omega)
      | (split_ifs <;> push_cast <;> omega)
      | (push_cast; omega)
      | omega

theorem iterate_moveCursor_left (s : TextArea)
    (hx1 : s.bounding_box.top_left.x ≤ s.cursor_absolute_position.x)
    (hx2 : s.cursor_absolute_position.x <
      s.bounding_box.top_left.x + (s.bounding_box.width : Int))
    (hy1 : s.bounding_box.top_left.y ≤ s.cursor_absolute_position.y)
    (hy2 : s.cursor_absolute_position.y <
      s.bounding_box.top_left.y + (s.bounding_box.height : Int)) :
    ∀ k : Nat, 1 ≤ k →
      (fun t => t.moveCursor .left)^[k] s =
        ⟨s.text_storage,
         ⟨⟨min s.bounding_box.top_left.x (s.cursor_absolute_position.x - (k : Int)),
           s.bounding_box.top_left.y⟩,
          s.bounding_box.width, s.bounding_box.height⟩,
         ⟨s.cursor_absolute_position.x - (k : Int), s.cursor_absolute_position.y⟩,
         none, s.history⟩ := by
  intro k hk
  induction k, hk using Nat.le_induction with
  | base =>
    rw [Function.iterate_one, moveCursor_eq]
    simp only [Direction.vector, TextArea.mk.injEq, BoundingBox.mk.injEq,
      Coordinates.mk.injEq, adjustAxis]
    repeat' apply And.intro
    all_goals first
      | rfl
      | trivial
      | (simp only [max_def, min_def]; split_ifs <;> push_cast <;> omega)
      | (split_ifs <;> push_cast <;> omega)
      | (push_cast; omega)
      | omega
  | succ k hk ih =>
    rw [Function.iterate_succ_apply', ih, moveCursor_eq]
    simp only [Direction.vector, TextArea.mk.injEq, BoundingBox.mk.injEq,
      Coordinates.mk.injEq, adjustAxis]
    repeat' apply And.intro
    all_goals first
      | rfl
      | trivial
      | (simp only [max_def, min_def]; split_ifs <;> push_cast <;> omega)
      | (split_ifs <;> push_cast <;> omega)
      | (push_cast; omega)
      | omega

theorem iterate_moveCursor_down (s : TextArea)
    (hx1 : s.bounding_box.top_left.x ≤ s.cursor_absolute_position.x)
    (hx2 : s.cursor_absolute_position.x <
      s.bounding_box.top_left.x + (s.bounding_box.width : Int))
    (hy1 : s.bounding_box.top_left.y ≤ s.cursor_absolute_position.y)
    (hy2 : s.cursor_absolute_position.y <
      s.bounding_box.top_left.y + (s.bounding_box.height : Int)) :
    ∀ k : Nat, 1 ≤ k →
      (fun t => t.moveCursor .down)^[k] s =
        ⟨s.text_storage,
         ⟨⟨s.bounding_box.top_left.x,
           max s.bounding_box.top_left.y
              (s.cursor_absolute_position.y + (k : Int) - ((s.bounding_box.height : Int) - 1))⟩,
          s.bounding_box.width, s.bounding_box.height⟩,
         ⟨s.cursor_absolute_position.x, s.cursor_absolute_position.y + (k : Int)⟩,
         none, s.history⟩ := by
  intro k hk
  induction k, hk using Nat.le_induction with
  | base =>
    rw [Function.iterate_one, moveCursor_eq]
    simp only [Direction.vector, TextArea.mk.injEq, BoundingBox.mk.injEq,
      Coordinates.mk.injEq, adjustAxis]
    repeat' apply And.intro
    all_goals first
      | rfl
      | trivial
      | (simp only [max_def, min_def]; split_ifs <;> push_cast <;> omega)
      | (split_ifs <;> push_cast <;> omega)
      | (push_cast; omega)
      | omega
  | succ k hk ih =>
    rw [Function.iterate_succ_apply', ih, moveCursor_eq]
    simp only [Direction.vector, TextArea.mk.injEq, BoundingBox.mk.injEq,
      Coordinates.mk.injEq, adjustAxis]
    repeat' apply And.intro
    all_goals first
      | rfl
      | trivial
      | (simp only [max_def, min_def]; split_ifs <;> push_cast <;> omega)
      | (split_ifs <;> push_cast <;> omega)
      | (push_cast; omega)
      | omega

theorem iterate_moveCursor_up (s : TextArea)
    (hx1 : s.bounding_box.top_left.x ≤ s.cursor_absolute_position.x)
    (hx2 : s.cursor_absolute_position.x <
      s.bounding_box.top_left.x + (s.bounding_box.width : Int))
    (hy1 : s.bounding_box.top_left.y ≤ s.cursor_absolute_position.y)
    (hy2 : s.cursor_absolute_position.y <
      s.bounding_box.top_left.y + (s.bounding_box.height : Int)) :
    ∀ k : Nat, 1 ≤ k →
      (fun t => t.moveCursor .up)^[k] s =
        ⟨s.text_storage,
         ⟨⟨s.bounding_box.top_left.x,
           min s.bounding_box.top_left.y (s.cursor_absolute_position.y - (k : Int))⟩,
          s.bounding_box.width, s.bounding_box.height⟩,
         ⟨s.cursor_absolute_position.x, s.cursor_absolute_position.y - (k : Int)⟩,
         none, s.history⟩ := by
  intro k hk
  induction k, hk using Nat.le_induction with
  | base =>
    rw [Function.iterate_one, moveCursor_eq]
    simp only [Direction.vector, TextArea.mk.injEq, BoundingBox.mk.injEq,
      Coordinates.mk.injEq, adjustAxis]
    repeat' apply And.intro
    all_goals first
      | rfl
      | trivial
      | (simp only [max_def, min_def]; split_ifs <;> push_cast <;> omega)
      | (split_ifs <;> push_cast <;> omega)
      | (push_cast; omega)
      | omega
  | succ k hk ih =>
    rw [Function.iterate_succ_apply', ih, moveCursor_eq]
    simp only [Direction.vector, TextArea.mk.injEq, BoundingBox.mk.injEq,
      Coordinates.mk.injEq, adjustAxis]
    repeat' apply And.intro
    all_goals first
      | rfl
      | trivial
      | (simp only [max_def, min_def]; split_ifs <;> push_cast <;> omega)
      | (split_ifs <;> push_cast <;> omega)
      | (push_cast; omega)
      | omega

/-- C10: on a text area whose cursor lies inside the viewport, a single
`move_cursor_by(d, n)` with `n ≥ 1` produces exactly the same state (cursor
position, viewport rectangle, and everything else) as `n` successive
`move_cursor(d)` calls. -/
theorem moveCursorBy_eq_iterate (s : TextArea) (d : Direction) (n : Nat)
    (hn : 1 ≤ n)
    (hin : s.bounding_box.contains s.cursor_absolute_position = true) :
    s.moveCursorBy d n = (fun t => t.moveCursor d)^[n] s := by
  rw [BoundingBox.contains_iff] at hin
  obtain ⟨⟨hx1, hx2⟩, hy1, hy2⟩ := hin
  cases d with
  | right =>
    rw [iterate_moveCursor_right s hx1 hx2 hy1 hy2 n hn, moveCursorBy_eq]
    simp only [Direction.vector, TextArea.mk.injEq, BoundingBox.mk.injEq,
      Coordinates.mk.injEq, adjustAxis]
    repeat' apply And.intro
    all_goals first
      | rfl
      | trivial
      | (simp only [max_def, min_def]; split_ifs <;> push_cast <;> omega)
      | (split_ifs <;> push_cast <;> omega)
      | (push_cast; omega)
      | omega
  | left =>
    rw [iterate_moveCursor_left s hx1 hx2 hy1 hy2 n hn, moveCursorBy_eq]
    simp only [Direction.vector, TextArea.mk.injEq, BoundingBox.mk.injEq,
      Coordinates.mk.injEq, adjustAxis]
    repeat' apply And.intro
    all_goals first
      | rfl
      | trivial
      | (simp only [max_def, min_def]; split_ifs <;> push_cast <;> omega)
      | (split_ifs <;> push_cast <;> omega)
      | (push_cast; omega)
      | omega
  | down =>
    rw [iterate_moveCursor_down s hx1 hx2 hy1 hy2 n hn, moveCursorBy_eq]
    simp only [Direction.vector, TextArea.mk.injEq, BoundingBox.mk.injEq,
      Coordinates.mk.injEq, adjustAxis]
    repeat' apply And.intro
    all_goals first
      | rfl
      | trivial
      | (simp only [max_def, min_def]; split_ifs <;> push_cast <;> omega)
      | (split_ifs <;> push_cast <;> omega)
      | (push_cast; omega)
      | omega
  | up =>
    rw [iterate_moveCursor_up s hx1 hx2 hy1 hy2 n hn, moveCursorBy_eq]
    simp only [Direction.vector, TextArea.mk.injEq, BoundingBox.mk.injEq,
      Coordinates.mk.injEq, adjustAxis]
    repeat' apply And.intro
    all_goals first
      | rfl
      | trivial
      | (simp only [max_def, min_def]; split_ifs <;> push_cast <;> omega)
      | (split_ifs <;> push_cast <;> omega)
      | (push_cast; omega)
      | omega

/-- Concrete instantiation of `moveCursorBy_eq_iterate`: a fresh 2×2 text
area, direction right, amount 3. -/
theorem moveCursorBy_eq_iterate_witness :
    (TextArea.new 2 2).bounding_box.contains
        (TextArea.new 2 2).cursor_absolute_position = true ∧
    (TextArea.new 2 2).moveCursorBy .right 3 =
      (fun t => t.moveCursor .right)^[3] (TextArea.new 2 2) :=
  ⟨by decide, moveCursorBy_eq_iterate (TextArea.new 2 2) .right 3 (by decide) (by decide)⟩

end MoveEquivalence

section CacheCoherence

/-- One public text-area operation (the `&mut self` methods of `TextArea`),
used to quantify over all operation sequences. -/
inductive TOp where
  | move (d : Direction)
  | moveBy (d : Direction) (n : Nat)
  | write (c : Char)
  | erase
  | undoOp
  | redoOp
  | clearOp
  | writeString (cs : List Char)
  | resetCursorOp
  | replaceWith (cs : List Char)
  | setSizeOp (w h : Nat)
  | readChars
  | ensure

/-- Apply one operation (for `chars`, which also returns a value, the
resulting state is kept). -/
def applyT (op : TOp) (s : TextArea) : TextArea :=
  match op with
  | .move d => s.moveCursor d
  | .moveBy d n => s.moveCursorBy d n
  | .write c => s.writeAtCursor c
  | .erase => s.eraseAtCursor
  | .undoOp => s.undo
  | .redoOp => s.redo
  | .clearOp => s.clear
  | .writeString cs => s.writeStringAtCursor cs
  | .resetCursorOp => s.resetCursor
  | .replaceWith cs => s.replaceWithString cs
  | .setSizeOp w h => s.setSize w h
  | .readChars => (s.chars).2
  | .ensure => s.ensureCache

/-- Cache coherence invariant: whenever the view cache is populated, it
holds exactly the storage entries inside the viewport, viewport-relative. -/
def cacheOK (s : TextArea) : Prop :=
  ∀ v, s.view_cache = some v →
    v = s.text_storage.charactersInBoundingBox s.bounding_box

theorem cacheOK_ensureCache (s : TextArea) (h : cacheOK s) : cacheOK s.ensureCache := by
  unfold TextArea.ensureCache
  by_cases hc : s.view_cache = none
  · rw [if_pos hc]
    intro v hv
    simp only [Option.some.injEq] at hv
    exact hv.symm
  · rw [if_neg hc]
    exact h

theorem cacheOK_writeStringAtCursor (s : TextArea) (cs : List Char) (h : cacheOK s) :
    cacheOK (s.writeStringAtCursor cs) := by
  induction cs generalizing s with
  | nil => exact h
  | cons c rest ih =>
    have : s.writeStringAtCursor (c :: rest) =
        ((s.writeAtCursor c).moveCursor .right).writeStringAtCursor rest := rfl
    rw [this]
    apply ih
    intro v hv
    simp only [TextArea.moveCursor] at hv
    cases hv

theorem cacheOK_applyT (op : TOp) (s : TextArea) (h : cacheOK s) : cacheOK (applyT op s) := by
  cases op with
  | move d => intro v hv; cases hv
  | moveBy d n => intro v hv; cases hv
  | write c => intro v hv; cases hv
  | erase =>
    intro v hv
    simp only [applyT, TextArea.eraseAtCursor] at hv
    rcases hg : s.text_storage.get s.cursor_absolute_position with _ | c <;>
      rw [hg] at hv <;> simp at hv
  | undoOp =>
    show cacheOK s.undo
    unfold TextArea.undo
    rcases hu : s.history.undo with ⟨oc, h'⟩
    rcases oc with _ | ch
    · exact fun v hv => h v hv
    · rcases ch with ⟨pos, c⟩ | ⟨pos, c⟩ <;> exact fun v hv => by simp at hv
  | redoOp =>
    show cacheOK s.redo
    unfold TextArea.redo
    rcases hu : s.history.redo with ⟨oc, h'⟩
    rcases oc with _ | ch
    · exact fun v hv => h v hv
    · rcases ch with ⟨pos, c⟩ | ⟨pos, c⟩ <;> exact fun v hv => by simp at hv
  | clearOp => intro v hv; cases hv
  | writeString cs => exact cacheOK_writeStringAtCursor s cs h
  | resetCursorOp => exact fun v hv => h v hv
  | replaceWith cs =>
    apply cacheOK_writeStringAtCursor
    intro v hv
    cases hv
  | setSizeOp w hh => intro v hv; cases hv
  | readChars => exact cacheOK_ensureCache s h
  | ensure => exact cacheOK_ensureCache s h

/-- Sequential application of text-area operations. -/
def applyOpsT (ops : List TOp) (s : TextArea) : TextArea :=
  ops.foldl (fun t op => applyT op t) s

theorem cacheOK_applyOpsT (ops : List TOp) (s : TextArea) (h : cacheOK s) :
    cacheOK (applyOpsT ops s) := by
  induction ops generalizing s with
  | nil => exact h
  | cons op rest ih => exact ih (applyT op s) (cacheOK_applyT op s h)

/-- C3: after every sequence of text-area operations applied to a fresh
text area, `chars()` yields exactly the storage entries contained in the
current viewport rectangle, each expressed relative to the viewport's
top-left (the view cache is never observably stale). -/
theorem chars_coherent (w h : Nat) (ops : List TOp) :
    ((applyOpsT ops (TextArea.new w h)).chars).1 =
      (applyOpsT ops (TextArea.new w h)).text_storage.charactersInBoundingBox
        (applyOpsT ops (TextArea.new w h)).bounding_box := by
  have hok : cacheOK (applyOpsT ops (TextArea.new w h)) := by
    apply cacheOK_applyOpsT
    intro v hv
    cases hv
  set s := applyOpsT ops (TextArea.new w h) with hs
  show (s.ensureCache.view_cache.getD []) = _
  unfold TextArea.ensureCache
  by_cases hc : s.view_cache = none
  · rw [if_pos hc]
    rfl
  · rw [if_neg hc]
    rcases hv : s.view_cache with _ | v
    · exact absurd hv hc
    · exact hok v hv

end CacheCoherence

section RoundTrip

/-- The operations quantified over by the round-trip property: writes with
arbitrary cursor movements interleaved. -/
inductive WOp where
  | move (d : Direction)
  | moveBy (d : Direction) (n : Nat)
  | write (c : Char)

/-- Sequential application of a write/move sequence. -/
def applyW : List WOp → TextArea → TextArea
  | [], s => s
  | .move d :: ops, s => applyW ops (s.moveCursor d)
  | .moveBy d n :: ops, s => applyW ops (s.moveCursorBy d n)
  | .write c :: ops, s => applyW ops (s.writeAtCursor c)

/-- The (position, character) pairs written during a run, in order. -/
def writesOf : List WOp → TextArea → List (Coordinates × Char)
  | [], _ => []
  | .move d :: ops, s => writesOf ops (s.moveCursor d)
  | .moveBy d n :: ops, s => writesOf ops (s.moveCursorBy d n)
  | .write c :: ops, s => (s.cursor_absolute_position, c) :: writesOf ops (s.writeAtCursor c)

/-- Number of writes in a sequence. -/
def numWrites : List WOp → Nat
  | [] => 0
  | .write _ :: ops => numWrites ops + 1
  | .move _ :: ops => numWrites ops
  | .moveBy _ _ :: ops => numWrites ops

/-- `n` successive `undo()` calls. -/
def undoN : Nat → TextArea → TextArea
  | 0, s => s
  | n + 1, s => undoN n s.undo

/-- `n` successive `redo()` calls. -/
def redoN : Nat → TextArea → TextArea
  | 0, s => s
  | n + 1, s => redoN n s.redo

/-- All writes of a run inserted in order. -/
def insertAll (st : TextStorage) (ws : List (Coordinates × Char)) : TextStorage :=
  ws.foldl (fun st w => st.insert w.1 w.2) st

/-- All written positions removed (in reverse order, as an undo run does). -/
def removeAll (st : TextStorage) (ws : List (Coordinates × Char)) : TextStorage :=
  ws.foldr (fun w st => st.remove w.1) st

/-- The character of the last write at position `q`, if any. -/
def lastVal (ws : List (Coordinates × Char)) (q : Coordinates) : Option Char :=
  ws.foldl (fun acc w => if w.1 = q then some w.2 else acc) none

/-- All history changes recorded in order. -/
def addAllH (h : History) (es : List Change) : History :=
  es.foldl History.add h

theorem writesOf_length (ops : List WOp) : ∀ s, (writesOf ops s).length = numWrites ops := by
  induction ops with
  | nil => intro s; rfl
  | cons op rest ih =>
    intro s
    cases op with
    | move d => exact ih _
    | moveBy d n => exact ih _
    | write c => simp only [writesOf, List.length_cons, numWrites, ih _]

theorem lastVal_acc (q : Coordinates) (ws : List (Coordinates × Char)) :
    ∀ acc : Option Char,
      ws.foldl (fun acc w => if w.1 = q then some w.2 else acc) acc =
        match lastVal ws q with
        | some c => some c
        | none => acc := by
  induction ws with
  | nil => intro acc; rfl
  | cons w rest ih =>
    intro acc
    show rest.foldl _ (if w.1 = q then some w.2 else acc) = _
    rw [ih]
    have hbase : lastVal (w :: rest) q =
        rest.foldl (fun acc w => if w.1 = q then some w.2 else acc)
          (if w.1 = q then some w.2 else none) := rfl
    rw [hbase, ih]
    rcases lastVal rest q with _ | c
    · by_cases hw : w.1 = q <;> simp [hw]
    · rfl

theorem get_insertAll (ws : List (Coordinates × Char)) :
    ∀ (st : TextStorage) (q : Coordinates),
      (insertAll st ws).get q =
        match lastVal ws q with
        | some c => some c
        | none => st.get q := by
  induction ws with
  | nil => intro st q; rfl
  | cons w rest ih =>
    intro st q
    show (insertAll (st.insert w.1 w.2) rest).get q = _
    rw [ih]
    have hlv : lastVal (w :: rest) q =
        match lastVal rest q with
        | some c => some c
        | none => if w.1 = q then some w.2 else none := by
      show rest.foldl _ (if w.1 = q then some w.2 else none) = _
      rw [lastVal_acc]
    rw [hlv]
    rcases lastVal rest q with _ | c
    · rw [TextStorage.get_insert]
      by_cases hw : w.1 = q
      · rw [if_pos (show q = w.1 from hw.symm), if_pos hw]
      · rw [if_neg (show ¬ q = w.1 from fun hh => hw hh.symm), if_neg hw]
    · rfl

theorem lastVal_cons (q : Coordinates) (w : Coordinates × Char)
    (rest : List (Coordinates × Char)) :
    lastVal (w :: rest) q =
      match lastVal rest q with
      | some c => some c
      | none => if w.1 = q then some w.2 else none := by
  show rest.foldl _ (if w.1 = q then some w.2 else none) = _
  rw [lastVal_acc]

theorem lastVal_eq_none_iff (q : Coordinates) (ws : List (Coordinates × Char)) :
    lastVal ws q = none ↔ q ∉ ws.map Prod.fst := by
  induction ws with
  | nil => simp [lastVal]
  | cons w rest ih =>
    rw [lastVal_cons, List.map_cons]
    cases hr : lastVal rest q with
    | none =>
      have hnr : q ∉ rest.map Prod.fst := ih.mp hr
      by_cases hw : w.1 = q
      · rw [if_pos hw]
        constructor
        · intro hc
          cases hc
        · intro hmem
          exact absurd (List.mem_cons.mpr (Or.inl hw.symm)) hmem
      · rw [if_neg hw]
        constructor
        · intro _ hmem
          rcases List.mem_cons.mp hmem with hh | hh
          · exact hw hh.symm
          · exact hnr hh
        · intro _
          rfl
    | some c =>
      constructor
      · intro hc
        cases hc
      · intro hmem
        exfalso
        apply hmem
        apply List.mem_cons.mpr
        right
        by_contra hq
        rw [ih.mpr hq] at hr
        cases hr

theorem get_removeAll (ws : List (Coordinates × Char)) :
    ∀ (st : TextStorage) (q : Coordinates),
      (removeAll st ws).get q =
        if q ∈ ws.map Prod.fst then none else st.get q := by
  induction ws with
  | nil => intro st q; simp [removeAll]
  | cons w rest ih =>
    intro st q
    show ((removeAll st rest).remove w.1).get q = _
    rw [TextStorage.get_remove, ih]
    by_cases hw : q = w.1
    · simp [hw]
    · by_cases hr : q ∈ rest.map Prod.fst
      · simp [hw, hr]
      · simp [hw, hr, fun hh : w.1 = q => hw hh.symm]

theorem applyW_run (ops : List WOp) :
    ∀ s : TextArea,
      (applyW ops s).text_storage = insertAll s.text_storage (writesOf ops s) ∧
      (applyW ops s).history =
        addAllH s.history ((writesOf ops s).map (fun w => Change.addedChar w.1 w.2)) := by
  induction ops with
  | nil => intro s; exact ⟨rfl, rfl⟩
  | cons op rest ih =>
    intro s
    cases op with
    | move d => exact ih (s.moveCursor d)
    | moveBy d n => exact ih (s.moveCursorBy d n)
    | write c => exact ih (s.writeAtCursor c)

theorem addAllH_end (es : List Change) :
    ∀ h : History, h.cursor = h.changes.length →
      (addAllH h es).changes = h.changes ++ es ∧
      (addAllH h es).cursor = h.cursor + es.length := by
  induction es with
  | nil => intro h hc; simp [addAllH]
  | cons e rest ih =>
    intro h hc
    show (addAllH (h.add e) rest).changes = _ ∧ (addAllH (h.add e) rest).cursor = _
    have h1 : (h.add e).changes = h.changes ++ [e] := by
      rw [History.add_changes, hc, List.take_length]
    have h2 : (h.add e).cursor = (h.add e).changes.length := by
      rw [History.add_cursor, h1, List.length_append, hc]
      rfl
    obtain ⟨ha, hb⟩ := ih (h.add e) h2
    constructor
    · rw [ha, h1, List.append_assoc]
      rfl
    · rw [hb, History.add_cursor]
      simp [List.length_cons]
      omega

theorem addAllH_run (es : List Change) (h : History)
    (hinv : h.cursor ≤ h.changes.length) (hne : es ≠ []) :
    (addAllH h es).changes = h.changes.take h.cursor ++ es ∧
    (addAllH h es).cursor = h.cursor + es.length := by
  rcases es with _ | ⟨e, rest⟩
  · exact absurd rfl hne
  show (addAllH (h.add e) rest).changes = _ ∧ (addAllH (h.add e) rest).cursor = _
  have h1 : (h.add e).changes = h.changes.take h.cursor ++ [e] := History.add_changes h e
  have h2 : (h.add e).cursor = (h.add e).changes.length := by
    rw [History.add_cursor, h1, List.length_append, List.length_take,
      Nat.min_eq_left hinv]
    rfl
  obtain ⟨ha, hb⟩ := addAllH_end rest (h.add e) h2
  constructor
  · rw [ha, h1, List.append_assoc]
    rfl
  · rw [hb, History.add_cursor]
    simp [List.length_cons]
    omega

theorem undoN_adds (ws : List (Coordinates × Char)) :
    ∀ (s : TextArea) (C0 EXT : List Change),
      s.history.changes = C0 ++ ws.map (fun w => Change.addedChar w.1 w.2) ++ EXT →
      s.history.cursor = C0.length + ws.length →
      (undoN ws.length s).text_storage = removeAll s.text_storage ws ∧
      (undoN ws.length s).history.changes = s.history.changes ∧
      (undoN ws.length s).history.cursor = C0.length := by
  induction ws using List.reverseRecOn with
  | nil =>
    intro s C0 EXT hch hcur
    exact ⟨rfl, rfl, by simpa using hcur⟩
  | append_singleton ws w ih =>
    intro s C0 EXT hch hcur
    rw [List.length_append, List.length_singleton] at hcur
    have hch' : s.history.changes =
        C0 ++ ws.map (fun w => Change.addedChar w.1 w.2) ++
          (Change.addedChar w.1 w.2 :: EXT) := by
      rw [hch]
      simp [List.map_append, List.append_assoc]
    have hcur0 : ¬ s.history.cursor = 0 := by omega
    have hc1 : s.history.cursor - 1 = C0.length + ws.length := by omega
    have helem : s.history.changes[s.history.cursor - 1]? =
        some (Change.addedChar w.1 w.2) := by
      rw [hc1, hch', List.append_assoc, List.getElem?_append_right (by simp),
        List.getElem?_append_right (by simp)]
      simp
    have hundo : s.undo =
        { s with
          history := { s.history with cursor := C0.length + ws.length }
          text_storage := s.text_storage.remove w.1
          view_cache := none } := by
      unfold TextArea.undo History.undo
      rw [if_neg hcur0, helem, hc1]
    have hlen : (ws ++ [w]).length = ws.length + 1 := by simp
    have hstep : undoN (ws ++ [w]).length s = undoN ws.length s.undo := by
      rw [hlen]
      rfl
    rw [hstep, hundo]
    obtain ⟨h1, h2, h3⟩ := ih
      { s with
        history := { s.history with cursor := C0.length + ws.length }
        text_storage := s.text_storage.remove w.1
        view_cache := none }
      C0 (Change.addedChar w.1 w.2 :: EXT) hch' rfl
    refine ⟨?_, ?_, h3⟩
    · rw [h1]
      show _ = List.foldr _ s.text_storage (ws ++ [w])
      rw [List.foldr_append]
      rfl
    · rw [h2]

theorem redoN_adds (ws : List (Coordinates × Char)) :
    ∀ (s : TextArea) (C0 EXT : List Change),
      s.history.changes = C0 ++ ws.map (fun w => Change.addedChar w.1 w.2) ++ EXT →
      s.history.cursor = C0.length →
      (redoN ws.length s).text_storage = insertAll s.text_storage ws ∧
      (redoN ws.length s).history.changes = s.history.changes ∧
      (redoN ws.length s).history.cursor = C0.length + ws.length := by
  induction ws with
  | nil =>
    intro s C0 EXT hch hcur
    exact ⟨rfl, rfl, by simpa using hcur⟩
  | cons w ws ih =>
    intro s C0 EXT hch hcur
    have hch' : s.history.changes =
        (C0 ++ [Change.addedChar w.1 w.2]) ++
          ws.map (fun w => Change.addedChar w.1 w.2) ++ EXT := by
      rw [hch]
      simp [List.map_cons, List.append_assoc]
    have hne : ¬ s.history.changes.length = s.history.cursor := by
      rw [hch', hcur]
      simp
    have helem : s.history.changes[s.history.cursor]? =
        some (Change.addedChar w.1 w.2) := by
      rw [hcur, hch, List.append_assoc, List.getElem?_append_right (by simp)]
      simp
    have hredo : s.redo =
        { s with
          history := { s.history with cursor := s.history.cursor + 1 }
          text_storage := s.text_storage.insert w.1 w.2
          view_cache := none } := by
      unfold TextArea.redo History.redo
      rw [if_neg hne, helem]
    have hstep : redoN (w :: ws).length s = redoN ws.length s.redo := rfl
    rw [hstep, hredo]
    obtain ⟨h1, h2, h3⟩ := ih
      { s with
        history := { s.history with cursor := s.history.cursor + 1 }
        text_storage := s.text_storage.insert w.1 w.2
        view_cache := none }
      (C0 ++ [Change.addedChar w.1 w.2]) EXT hch'
      (by simp [hcur])
    refine ⟨h1, by rw [h2], ?_⟩
    · rw [h3]
      simp
      omega

/-- C1 (amended): for any sequence of `write_at_cursor` calls with cursor
movements interleaved, **provided every write targets a position that held
no character in the prior state**, an equal number of `undo()` calls returns
the sparse text storage to exactly its prior state (same keys, same
characters, stated through the lookup function), and a further equal number
of `redo()` calls restores the post-write storage.  The freshness proviso is
forced: `AddedChar` records only the inserted character, so undoing a write
that overwrote an existing character removes the key instead of restoring
the old character (see the counterexample). -/
theorem write_undo_redo_roundTrip (s : TextArea) (ops : List WOp)
    (hinv : s.history.cursor ≤ s.history.changes.length)
    (hfresh : ∀ w ∈ writesOf ops s, s.text_storage.get w.1 = none) :
    (∀ q, (undoN (numWrites ops) (applyW ops s)).text_storage.get q =
      s.text_storage.get q) ∧
    (∀ q, (redoN (numWrites ops)
        (undoN (numWrites ops) (applyW ops s))).text_storage.get q =
      (applyW ops s).text_storage.get q) := by
  have hlen := writesOf_length ops s
  obtain ⟨hst, hhi⟩ := applyW_run ops s
  by_cases hemp : writesOf ops s = []
  · have h0 : numWrites ops = 0 := by rw [← hlen, hemp]; rfl
    rw [h0]
    constructor
    · intro q
      show (applyW ops s).text_storage.get q = _
      rw [hst, hemp]
      rfl
    · intro q
      rfl
  · have h0 : numWrites ops = (writesOf ops s).length := hlen.symm
    rw [h0]
    have hmapne : (writesOf ops s).map (fun w => Change.addedChar w.1 w.2) ≠ [] := by
      simpa using hemp
    obtain ⟨hc1, hc2⟩ := addAllH_run _ s.history hinv hmapne
    have hch0 : (applyW ops s).history.changes =
        s.history.changes.take s.history.cursor ++
          (writesOf ops s).map (fun w => Change.addedChar w.1 w.2) := by
      rw [hhi]
      exact hc1
    have hch : (applyW ops s).history.changes =
        s.history.changes.take s.history.cursor ++
          (writesOf ops s).map (fun w => Change.addedChar w.1 w.2) ++ [] := by
      rw [List.append_nil]
      exact hch0
    have hcu : (applyW ops s).history.cursor =
        (s.history.changes.take s.history.cursor).length + (writesOf ops s).length := by
      rw [hhi, hc2, List.length_take, Nat.min_eq_left hinv, List.length_map]
    obtain ⟨hu1, hu2, hu3⟩ :=
      undoN_adds (writesOf ops s) (applyW ops s) _ [] hch hcu
    constructor
    · intro q
      rw [hu1, hst, get_removeAll]
      by_cases hq : q ∈ (writesOf ops s).map Prod.fst
      · rw [if_pos hq]
        obtain ⟨w, hwmem, hweq⟩ := List.mem_map.mp hq
        rw [← hweq]
        exact (hfresh w hwmem).symm
      · rw [if_neg hq, get_insertAll]
        rw [(lastVal_eq_none_iff q _).mpr hq]
    · intro q
      obtain ⟨hr1, hr2, hr3⟩ :=
        redoN_adds (writesOf ops s)
          (undoN (writesOf ops s).length (applyW ops s)) _ [] (hu2.trans hch) hu3
      rw [hr1, hu1, hst, get_insertAll, get_insertAll]
      cases hlv : lastVal (writesOf ops s) q with
      | some c => rfl
      | none =>
        have hq : q ∉ (writesOf ops s).map Prod.fst := (lastVal_eq_none_iff q _).mp hlv
        rw [get_removeAll, if_neg hq, get_insertAll, hlv]

/-- Concrete instantiation of `write_undo_redo_roundTrip`: on a fresh 3×3
text area, write 'a', move right, write 'b' (both cells empty before), then
two undos restore the empty storage at the origin. -/
theorem write_undo_redo_roundTrip_witness :
    (TextArea.new 3 3).history.cursor ≤ (TextArea.new 3 3).history.changes.length ∧
    (∀ w ∈ writesOf [WOp.write 'a', WOp.move .right, WOp.write 'b'] (TextArea.new 3 3),
      (TextArea.new 3 3).text_storage.get w.1 = none) ∧
    (∀ q, (undoN (numWrites [WOp.write 'a', WOp.move .right, WOp.write 'b'])
        (applyW [WOp.write 'a', WOp.move .right, WOp.write 'b']
          (TextArea.new 3 3))).text_storage.get q =
      (TextArea.new 3 3).text_storage.get q) :=
  ⟨by decide, by decide,
    (write_undo_redo_roundTrip (TextArea.new 3 3)
      [WOp.write 'a', WOp.move .right, WOp.write 'b'] (by decide) (by decide)).1⟩

/-- A prior state holding 'x' at the origin (reached by one prior write). -/
def overwrittenPrior : TextArea := (TextArea.new 3 3).writeAtCursor 'x'

/-- C1 counterexample: the round-trip claim is false as stated.  From the
prior state holding 'x' at the origin, one `write_at_cursor('a')` (an
overwrite) followed by one `undo()` does **not** return the storage to the
prior state: the origin ends up empty instead of holding 'x', because the
`AddedChar` edit does not record the overwritten character. -/
theorem write_undo_roundTrip_fails :
    ¬ (∀ q, (undoN (numWrites [WOp.write 'a'])
        (applyW [WOp.write 'a'] overwrittenPrior)).text_storage.get q =
      overwrittenPrior.text_storage.get q) := by
  intro hall
  have h := hall ⟨0, 0⟩
  rw [show (undoN (numWrites [WOp.write 'a'])
      (applyW [WOp.write 'a'] overwrittenPrior)).text_storage.get ⟨0, 0⟩ = none from by
        decide,
    show overwrittenPrior.text_storage.get ⟨0, 0⟩ = some 'x' from by decide] at h
  cases h

end RoundTrip

section Compositor

/-- Glyph metrics from the external rasterizer (fontdue's `Metrics`):
coverage-bitmap dimensions and bearings (`width`, `height` are `usize`;
`xmin`, `ymin` are `i32`). -/
structure Metrics where
  width : Nat
  height : Nat
  xmin : Int
  ymin : Int
deriving DecidableEq, Repr

/-- Font manager, from `FontManager` in `canvas.rs`: the configured `f32`
pixel size is modelled by its `as usize` truncation (`character_height` is
the only consumer); the external rasterizer is a pure function and the
memoizing atlas is elided (memoizing a pure function is unobservable). -/
structure FontManager where
  font_size : Nat
  rasterizeFn : Char → Metrics × List Nat

/-- From `FontManager::character_height`: `font_size as usize`. -/
def FontManager.character_height (f : FontManager) : Nat := f.font_size

/-- From `FontManager::character_width`: half the height (fixed monospace
assumption). -/
def FontManager.character_width (f : FontManager) : Nat := f.character_height / 2

/-- From `FontManager::rasterize` (atlas elided). -/
def FontManager.rasterize (f : FontManager) (c : Char) : Metrics × List Nat :=
  f.rasterizeFn c

/-- Destination pixel surface dimensions, from `FrameBuffer` in `canvas.rs`. -/
structure FrameBuffer where
  width : Nat
  height : Nat
deriving DecidableEq, Repr

/-- Checked `usize` subtraction (Rust panics on underflow). -/
def checkedSub (a b : Nat) : Option Nat :=
  if b ≤ a then some (a - b) else none

/-- Checked `usize` division (Rust panics on division by zero). -/
def checkedDiv (a b : Nat) : Option Nat :=
  if b = 0 then none else some (a / b)

/-- Slice `chunks`/`chunks_mut`: consecutive pieces of length `w`, the last
possibly shorter.  Callers model the Rust panic on `w = 0` separately. -/
def chunksList (w : Nat) : List Nat → List (List Nat)
  | [] => []
  | a :: rest =>
    match w with
    | 0 => []
    | ww + 1 => ((a :: rest).take (ww + 1)) :: chunksList (ww + 1) (rest.drop ww)
termination_by l => l.length
decreasing_by simp; omega

/-- Saturating byte addition (`u8::saturating_add`). -/
def satAdd8 (a b : Nat) : Nat := min (a + b) 255

/-- Big-endian byte decomposition of a `u32` pixel (`to_be_bytes`). -/
def toBeBytes (v : Nat) : Nat × Nat × Nat × Nat :=
  (v / 2 ^ 24 % 256, v / 2 ^ 16 % 256, v / 2 ^ 8 % 256, v % 256)

/-- Big-endian byte recomposition (`from_be_bytes`). -/
def fromBeBytes (b : Nat × Nat × Nat × Nat) : Nat :=
  b.1 * 2 ^ 24 + b.2.1 * 2 ^ 16 + b.2.2.1 * 2 ^ 8 + b.2.2.2

/-- Per-pixel blend from the innermost loop of `FrameBuffer::draw`: the
source pixel is `from_be_bytes([0, v, v, v])`; when the destination differs
byte-for-byte from the source, each colour channel is added with saturation
at 255 (top byte kept); otherwise the destination is left untouched. -/
def blendPixel (dest v : Nat) : Nat :=
  let src := fromBeBytes (0, v, v, v)
  let d := toBeBytes dest
  let s := toBeBytes src
  if d ≠ s then
    fromBeBytes (d.1, satAdd8 d.2.1 s.2.1, satAdd8 d.2.2.1 s.2.2.1, satAdd8 d.2.2.2 s.2.2.2)
  else
    dest

/-- The consumption of the zipped row iterators in `FrameBuffer::draw`: for
each zipped pair, the destination row is subsliced at
`[start, start + lw)` (panic — `none` — when out of range, as in the
source's `&mut l[start..start + width]`), the source row is subsliced at
`[dispW, dw)` (panic when `dw` exceeds its length), and the destination
segment is blended pixel-wise.  `count` bounds the number of consumed pairs
(the `take` limits); the zip stops silently when either side runs out. -/
def blitRows (start lw dispW dw : Nat) :
    List (List Nat) → List (List Nat) → Nat → Nat → Option (List (List Nat))
  | destRows, [], _, _ => some destRows
  | destRows, srcRow :: srcRest, skip, count =>
    match count with
    | 0 => some destRows
    | count + 1 =>
      match destRows[skip]? with
      | none => some destRows
      | some row =>
        if start + lw ≤ row.length then
          if dw ≤ srcRow.length then
            let blended := List.zipWith blendPixel ((row.drop start).take lw)
              ((srcRow.drop dispW).take (dw - dispW))
            let newRow := row.take start ++ blended ++ row.drop (start + lw)
            blitRows start lw dispW dw (destRows.set skip newRow) srcRest (skip + 1) count
          else none
        else none

/-- One glyph blit, from the body of `FrameBuffer::draw` (the part guarded
by `!bitmap.is_empty()`), with every Rust panic site modelled as `none`:
computes the glyph's pixel origin with baseline and bearing shifts, clamps
negative components to zero remembering the clamped amount as a source-side
skip, clips the visible extent against the destination, and blends the
visible rows.  Note the source computes the vertical clip against
`self.width` (not `self.height`); the model mirrors this. -/
def drawGlyph (fb : FrameBuffer) (charWidth charHeight : Nat)
    (metrics : Metrics) (bitmap : List Nat) (coord topLeft : Coordinates)
    (buffer : List Nat) : Option (List Nat) :=
  if bitmap.isEmpty then some buffer else
  let ctl0 := (coord.add topLeft).mul ⟨(charWidth : Int), (charHeight : Int)⟩
  let ctl : Coordinates :=
    ⟨ctl0.x + metrics.xmin,
     ctl0.y + (charHeight : Int) - metrics.ymin - (metrics.height : Int)⟩
  let bounded := ctl.maxScalar 0
  let disp := (ctl.minScalar 0).unsignedAbs
  (checkedSub fb.width bounded.x.toNat).bind fun remx =>
  let dw := min metrics.width remx
  (checkedSub fb.width bounded.y.toNat).bind fun remy =>
  let dh := min metrics.height remy
  (checkedSub dw disp.1).bind fun lw =>
  (checkedSub dh disp.2).bind fun lh =>
  if fb.width = 0 then none else
  if metrics.width = 0 then none else
  let destRows := chunksList fb.width buffer
  let srcRows := ((chunksList metrics.width bitmap).drop disp.2).take dh
  let count := min lh (destRows.length - bounded.y.toNat)
  (blitRows bounded.x.toNat lw disp.1 dw destRows srcRows bounded.y.toNat count).map
    (fun rows => rows.join)

/-- From `FrameBuffer::draw`: blit every (cell coordinate, character) pair
in turn; `none` models a panic while drawing some glyph. -/
def FrameBuffer.draw (fb : FrameBuffer) (chars : List (Coordinates × Char))
    (font : FontManager) (topLeft : Coordinates) (buffer : List Nat) :
    Option (List Nat) :=
  chars.foldlM
    (fun buf cc =>
      drawGlyph fb font.character_width font.character_height
        (font.rasterize cc.2).1 (font.rasterize cc.2).2 cc.1 topLeft buf)
    buffer

/-- C2 fails on the code: drawing the spec's own example — a glyph with a
large left bearing at cell (0, 0), here `xmin = -6` with bitmap width 5 on a
10×10 surface — panics: the source-side skip (6) exceeds the displayed
width (5) and the `usize` subtraction
`displayed_width - displacement_width` underflows.  The model evaluates the
draw at this input to `none` (= panic), contradicting "draw does not panic
… for every character and cell position". -/
theorem draw_panics_offLeft :
    FrameBuffer.draw ⟨10, 10⟩ [(⟨0, 0⟩, 'g')]
      ⟨8, fun _ => (⟨5, 5, -6, 0⟩, List.replicate 25 255)⟩ ⟨0, 0⟩
      (List.replicate 100 0) = none := by
  rfl

end Compositor

section CanvasLayout

/-- Canvas, from `Canvas` in `canvas.rs` (the window surface handle is
external and carries no model state). -/
structure Canvas where
  frame_buffer : FrameBuffer
  font : FontManager
  top_line : TextArea
  draw_area : TextArea
  bottom_line : TextArea

/-- From `Canvas::width`. -/
def Canvas.width (c : Canvas) : Nat := c.frame_buffer.width

/-- From `Canvas::height`. -/
def Canvas.height (c : Canvas) : Nat := c.frame_buffer.height

/-- From `Canvas::new`: derive cell dimensions from the font and partition
the surface into three stacked text areas (one status row, `height-in-cells
minus 2` interior rows, one status row).  The divisions by the cell
dimensions and the `- 2` are checked (`none` = Rust panic, reachable when
the cell size is 0 or the surface is under two cells tall). -/
def Canvas.new (font : FontManager) (width height : Nat) : Option Canvas :=
  (checkedDiv width font.character_width).bind fun wCells =>
  (checkedDiv height font.character_height).bind fun hCells =>
  (checkedSub hCells 2).map fun inner =>
  { frame_buffer := ⟨width, height⟩
    font := font
    top_line := TextArea.new wCells 1
    draw_area := TextArea.new wCells inner
    bottom_line := TextArea.new wCells 1 }

/-- From `Canvas::set_font_size`: install the new size, revert it if the
derived cell height (resp. width) exceeds half the surface height (resp.
width), otherwise resize all three text areas.  The source computes the
drawing area's height as `(height / character_height).saturating_sub(1)`
(truncated `Nat` subtraction), and its divisions are checked (`none` = Rust
panic, reachable when the accepted size is below 2 so the derived cell width
is 0). -/
def Canvas.setFontSize (c : Canvas) (value : Nat) : Option Canvas :=
  let font' : FontManager := { c.font with font_size := value }
  if font'.character_height > c.height / 2 ∨ font'.character_width > c.width / 2 then
    some { c with font := { font' with font_size := c.font.font_size } }
  else
    (checkedDiv c.width font'.character_width).bind fun wCells =>
    (checkedDiv c.height font'.character_height).map fun hCells =>
    { c with
      font := font'
      top_line := c.top_line.setSize wCells 1
      draw_area := c.draw_area.setSize wCells (hCells - 1)
      bottom_line := c.bottom_line.setSize wCells 1 }

/-- From `Canvas::resize` (arguments come from `NonZeroU32`; the surface
resize call is external): update the surface dimensions and resize all
three text areas, keeping the font size.  As in the source, the drawing
area's height is `(height / character_height).saturating_sub(1)`. -/
def Canvas.resize (c : Canvas) (width height : Nat) : Option Canvas :=
  (checkedDiv width c.font.character_width).bind fun wCells =>
  (checkedDiv height c.font.character_height).map fun hCells =>
  { c with
    frame_buffer := ⟨width, height⟩
    top_line := c.top_line.setSize wCells 1
    draw_area := c.draw_area.setSize wCells (hCells - 1)
    bottom_line := c.bottom_line.setSize wCells 1 }

/-- C6 fails on the code: with cell height 10 on a 100×100 surface
(10 cells tall), construction sets the drawing area's height to
`10 - 2 = 8` as the claim says, but `resize(100, 100)` and an accepted
`set_font_size(10)` both set it to `(100 / 10).saturating_sub(1) = 9` —
`surface_height_in_cells - 1`, not `- 2`. -/
theorem canvas_resize_drawArea_height :
    ((Canvas.new ⟨10, fun _ => (⟨0, 0, 0, 0⟩, [])⟩ 100 100).map
        (fun c => c.draw_area.bounding_box.height)) = some 8 ∧
    (((Canvas.new ⟨10, fun _ => (⟨0, 0, 0, 0⟩, [])⟩ 100 100).bind
        (fun c => c.resize 100 100)).map
        (fun c => c.draw_area.bounding_box.height)) = some 9 ∧
    (((Canvas.new ⟨10, fun _ => (⟨0, 0, 0, 0⟩, [])⟩ 100 100).bind
        (fun c => c.setFontSize 10)).map
        (fun c => c.draw_area.bounding_box.height)) = some 9 := by
  refine ⟨rfl, rfl, rfl⟩

/-- C7 (amended): when the requested font size's derived cell height
exceeds half the surface height or its derived cell width exceeds half the
surface width, `set_font_size` leaves the canvas — font size and all three
text areas — entirely unchanged; otherwise, **provided the truncated size
is at least 2** (so the derived cell width is nonzero and the divisions do
not panic), it recomputes all three text areas' sizes from the new cell
dimensions.  The proviso is forced: an accepted size below 2 makes the
derived cell width 0 and the recomputation divides by zero (see the
counterexample). -/
theorem setFontSize_spec (c : Canvas) (value : Nat) :
    (value > c.height / 2 ∨ value / 2 > c.width / 2 →
      c.setFontSize value = some c) ∧
    (¬ (value > c.height / 2 ∨ value / 2 > c.width / 2) → 2 ≤ value →
      c.setFontSize value = some
        { c with
          font := { c.font with font_size := value }
          top_line := c.top_line.setSize (c.width / (value / 2)) 1
          draw_area := c.draw_area.setSize (c.width / (value / 2)) (c.height / value - 1)
          bottom_line := c.bottom_line.setSize (c.width / (value / 2)) 1 }) := by
  constructor
  · intro hcond
    unfold Canvas.setFontSize
    simp only [FontManager.character_height, FontManager.character_width]
    rw [if_pos hcond]
  · intro hcond hval
    unfold Canvas.setFontSize
    simp only [FontManager.character_height, FontManager.character_width]
    rw [if_neg hcond]
    have hw0 : ¬ value / 2 = 0 := by omega
    have hh0 : ¬ value = 0 := by omega
    simp only [checkedDiv, if_neg hw0, if_neg hh0]
    rfl

/-- A concrete canvas (100×100 surface, cell height 10, cell width 5, text
areas as `Canvas::new` lays them out). -/
def demoCanvas : Canvas :=
  { frame_buffer := ⟨100, 100⟩
    font := ⟨10, fun _ => (⟨0, 0, 0, 0⟩, [])⟩
    top_line := TextArea.new 20 1
    draw_area := TextArea.new 20 8
    bottom_line := TextArea.new 20 1 }

/-- Concrete instantiation of `setFontSize_spec`: size 120 on the 100×100
canvas is rejected (cell height 120 > 50) and the canvas is unchanged; size
8 is accepted and the three areas are resized. -/
theorem setFontSize_spec_witness :
    ((120 > demoCanvas.height / 2 ∨ 120 / 2 > demoCanvas.width / 2) ∧
      demoCanvas.setFontSize 120 = some demoCanvas) ∧
    (¬ (8 > demoCanvas.height / 2 ∨ 8 / 2 > demoCanvas.width / 2) ∧ 2 ≤ 8 ∧
      demoCanvas.setFontSize 8 = some
        { demoCanvas with
          font := { demoCanvas.font with font_size := 8 }
          top_line := demoCanvas.top_line.setSize (demoCanvas.width / (8 / 2)) 1
          draw_area := demoCanvas.draw_area.setSize (demoCanvas.width / (8 / 2))
            (demoCanvas.height / 8 - 1)
          bottom_line := demoCanvas.bottom_line.setSize (demoCanvas.width / (8 / 2)) 1 }) :=
  ⟨⟨by decide, (setFontSize_spec demoCanvas 120).1 (by decide)⟩,
   ⟨by decide, by decide, (setFontSize_spec demoCanvas 8).2 (by decide) (by decide)⟩⟩

/-- C7 counterexample: the claim's unguarded "otherwise all three Text
Areas' sizes are recomputed" is false.  Font size 1 on the 100×100 canvas
passes the rejection test (cell height 1 ≤ 50, cell width 0 ≤ 50), but the
recomputation divides the surface width by the derived cell width 0 and
panics (`none`): the sizes are neither kept nor recomputed. -/
theorem setFontSize_tiny_panics : demoCanvas.setFontSize 1 = none := by
  rfl

end CanvasLayout

end Boxdrawed
